import Mathlib

/-!
A shallow embedding of the `leansig` hash-based signature scheme
(crates/core: `lib.rs`, `code.rs`, `hash.rs`, `hash_chain.rs`, `hash_tree.rs`,
`spec.rs`) together with proofs about its claims.

Modelling conventions:
* Bytes (`u8`) are `Nat`s; byte strings (`[u8; N]`, `Vec<u8>`) are `List Nat`.
* The Keccak-256 permutation backend is an external collaborator of the core
  (it lives in the `tiny_keccak` crate, outside this repository), so every
  definition is parameterised by an arbitrary digest function
  `H : List Nat → List Nat`; the incremental hasher (`update`/`finalize`)
  is modelled by accumulating the written bytes into a list.
* The seeded RNG (`rand::StdRng`, also external) is modelled as a
  deterministic byte stream with a read position; `fill_bytes` reads
  consecutive bytes of the stream.
* `&mut self` methods become explicit state passing: `Signer::sign`
  returns the updated signer next to its `Option<Signature>` result.
* Machine integers are `Nat`; `usize → u64` / `u32` casts in the hash
  framing are modelled by per-byte masking in the big-endian encoders.
* Rust panics (out-of-range indexing, asserts) cannot occur on the inputs
  the theorems quantify over; list accesses use `getD` with a default and
  every theorem carries the corresponding side conditions as hypotheses.
-/

namespace LeanSig

/-- A 32-byte hash value (`Hash(pub [u8; 32])` in `hash.rs`). -/
abbrev Hash := List Nat

/-- A per-signer domain parameter (`Param { data: Vec<u8> }` in `lib.rs`). -/
abbrev Param := List Nat

/-- A 32-byte message (`Message(pub [u8; MESSAGE_LEN])`). -/
abbrev Message := List Nat

/-- A 23-byte nonce (`Nonce(pub [u8; RAND_LEN])`). -/
abbrev Nonce := List Nat

/-- `MESSAGE_LEN` from `lib.rs`. -/
def MESSAGE_LEN : Nat := 32

/-- `RAND_LEN` from `lib.rs`. -/
def RAND_LEN : Nat := 23

/-- Tweak separator byte for chain hashes (`hash.rs`). -/
def TWEAK_CHAIN : Nat := 0x00

/-- Tweak separator byte for tree hashes (`hash.rs`). -/
def TWEAK_TREE : Nat := 0x01

/-- Tweak separator byte for message hashes (`hash.rs`). -/
def TWEAK_MESSAGE : Nat := 0x02

/-- The incremental hasher state: the bytes absorbed so far.
`Keccak::v256()` starts with the empty state. -/
def Keccak.v256 : List Nat := []

/-- `hasher.update(bytes)` absorbs bytes at the end of the state. -/
def Keccak.update (st bytes : List Nat) : List Nat := st ++ bytes

/-- `hasher.finalize(&mut out)`: apply the digest function to the absorbed
byte string. -/
def Keccak.finalize (H : List Nat → List Nat) (st : List Nat) : Hash := H st

/-- Big-endian encoding of `x` into `width` bytes, each byte masked to
8 bits (which also models the wrap-around of the Rust integer cast). -/
def beBytes (width x : Nat) : List Nat :=
  (List.range width).map (fun i => x / 2 ^ (8 * (width - 1 - i)) % 256)

/-- `(x as u64).to_be_bytes()`. -/
def beU64 (x : Nat) : List Nat := beBytes 8 x

/-- `(x as u32).to_be_bytes()`. -/
def beU32 (x : Nat) : List Nat := beBytes 4 x

/-- `tweak_hash_message` from `hash.rs`: absorbs `param`, `TWEAK_MESSAGE`,
`nonce`, `message` in this order and finalizes. -/
def tweak_hash_message (H : List Nat → List Nat) (param : Param)
    (message : Message) (nonce : Nonce) : Hash :=
  Keccak.finalize H
    (Keccak.update (Keccak.update (Keccak.update (Keccak.update Keccak.v256
      param) [TWEAK_MESSAGE]) nonce) message)

/-- `tweak_hash_chain` from `hash.rs`: absorbs `param`, `TWEAK_CHAIN`, the
previous hash, `be_u64(chain_index)`, `be_u64(pos_in_chain)`. -/
def tweak_hash_chain (H : List Nat → List Nat) (param : Param)
    (chain_index pos_in_chain : Nat) (hash : Hash) : Hash :=
  Keccak.finalize H
    (Keccak.update (Keccak.update (Keccak.update (Keccak.update
      (Keccak.update Keccak.v256 param) [TWEAK_CHAIN]) hash)
      (beU64 chain_index)) (beU64 pos_in_chain))

/-- `tweak_hash_tree_node` from `hash.rs`: absorbs `param`, `TWEAK_TREE`,
`be_u32(level)`, `be_u32(index)`, `left`, `right`. -/
def tweak_hash_tree_node (H : List Nat → List Nat) (param : Param)
    (left right : Hash) (level index : Nat) : Hash :=
  Keccak.finalize H
    (Keccak.update (Keccak.update (Keccak.update (Keccak.update
      (Keccak.update (Keccak.update Keccak.v256 param) [TWEAK_TREE])
      (beU32 level)) (beU32 index)) left) right)

/-- A one-time public key (`Pk` in `lib.rs`). -/
structure Pk where
  param : Param
  end_hashes : List Hash
deriving DecidableEq, Repr

/-- `tweak_public_key_hash` from `hash.rs`: absorbs `param`, `TWEAK_TREE`,
then every end hash of the public key in order. -/
def tweak_public_key_hash (H : List Nat → List Nat) (param : Param)
    (public_key : Pk) : Hash :=
  Keccak.finalize H
    (public_key.end_hashes.foldl Keccak.update
      (Keccak.update (Keccak.update Keccak.v256 param) [TWEAK_TREE]))

/-! Second definitions of the four permutation inputs, written from the
spec's byte-string formulas (§4.1), to be compared with the accumulated
hasher states above. -/

/-- Spec formula: `param ‖ 0x02 ‖ nonce ‖ message`. -/
def specMessageInput (param : Param) (message : Message) (nonce : Nonce) :
    List Nat :=
  param ++ [0x02] ++ nonce ++ message

/-- Spec formula: `param ‖ 0x00 ‖ prev ‖ be_u64(chain_index) ‖ be_u64(pos_in_chain)`. -/
def specChainInput (param : Param) (chain_index pos_in_chain : Nat)
    (prev : Hash) : List Nat :=
  param ++ [0x00] ++ prev ++ beU64 chain_index ++ beU64 pos_in_chain

/-- Spec formula: `param ‖ 0x01 ‖ be_u32(level) ‖ be_u32(index) ‖ left ‖ right`. -/
def specTreeInput (param : Param) (left right : Hash) (level index : Nat) :
    List Nat :=
  param ++ [0x01] ++ beU32 level ++ beU32 index ++ left ++ right

/-- Spec formula: `param ‖ 0x01 ‖ end_hashes[0] ‖ end_hashes[1] ‖ …`. -/
def specPkInput (param : Param) (public_key : Pk) : List Nat :=
  param ++ [0x01] ++ public_key.end_hashes.flatten

/-- `hash_chain` from `hash_chain.rs`: walk `steps` links from
`start_hash` sitting at `start_pos`; iteration `j` hashes with
`pos_in_chain = start_pos + j + 1`.  The loop is embedded by peeling its
last iteration. -/
def hash_chain (H : List Nat → List Nat) (param : Param) (chain_index : Nat)
    (start_hash : Hash) (start_pos : Nat) : Nat → Hash
  | 0 => start_hash
  | k + 1 =>
    tweak_hash_chain H param chain_index (start_pos + k + 1)
      (hash_chain H param chain_index start_hash start_pos k)

/-- The eight bits of a byte, least-significant first
(`view_bits::<Lsb0>()` on one byte). -/
def byteBitsLsb0 (b : Nat) : List Bool :=
  (List.range 8).map (fun j => b.testBit j)

/-- The `Lsb0` bit view of a byte string. -/
def bytesToBits (bytes : List Nat) : List Bool :=
  (bytes.map byteBitsLsb0).flatten

/-- Take `n` successive chunks of `w` elements each. -/
def chunksN (w : Nat) : Nat → List Bool → List (List Bool)
  | 0, _ => []
  | n + 1, l => l.take w :: chunksN w n (l.drop w)

/-- `chunks_exact(w)`: split into the `⌊length / w⌋` chunks of exactly
`w` elements, dropping a shorter remainder. -/
def chunksExact (w : Nat) (l : List Bool) : List (List Bool) :=
  chunksN w (l.length / w) l

/-- `load::<u8>()` on an `Lsb0` chunk: the first bit is least significant. -/
def loadLsb0 (bits : List Bool) : Nat :=
  bits.foldr (fun b acc => 2 * acc + cond b 1 0) 0

/-- `bytes_to_coordinates` from `code.rs`. -/
def bytes_to_coordinates (bytes : List Nat) (resolution_bits : Nat) :
    List Nat :=
  (chunksExact resolution_bits (bytesToBits bytes)).map loadLsb0

/-- `Spec` from `spec.rs`. -/
structure Spec where
  message_hash_len : Nat
  coordinate_resolution_bits : Nat
  param_len : Nat
  target_sum : Nat
deriving DecidableEq, Repr

/-- `Spec::dimension`. -/
def Spec.dimension (s : Spec) : Nat :=
  s.message_hash_len * 8 / s.coordinate_resolution_bits

/-- `Spec::chain_len` (`1 << coordinate_resolution_bits`). -/
def Spec.chain_len (s : Spec) : Nat :=
  2 ^ s.coordinate_resolution_bits

/-- `SPEC_1` from `spec.rs`. -/
def SPEC_1 : Spec :=
  { message_hash_len := 18, coordinate_resolution_bits := 2,
    param_len := 18, target_sum := 119 }

/-- `SPEC_2` from `spec.rs`. -/
def SPEC_2 : Spec :=
  { message_hash_len := 18, coordinate_resolution_bits := 4,
    param_len := 18, target_sum := 297 }

/-- `Codeword` from `code.rs`. -/
structure Codeword where
  coords : List Nat
deriving DecidableEq, Repr

/-- `Codeword::new`: hash, truncate to `message_hash_len` bytes, chop into
`w`-bit coordinates. -/
def Codeword.new (H : List Nat → List Nat) (spec : Spec) (param : Param)
    (message : Message) (nonce : Nonce) : Codeword :=
  let full_hash := tweak_hash_message H param message nonce
  let trunc_hash := full_hash.take spec.message_hash_len
  ⟨bytes_to_coordinates trunc_hash spec.coordinate_resolution_bits⟩

/-- `Codeword::sum`. -/
def Codeword.sum (c : Codeword) : Nat := c.coords.sum

/-- `Codeword::dimension`. -/
def Codeword.dimension (c : Codeword) : Nat := c.coords.length

/-- `new_valid` from `code.rs`. -/
def new_valid (H : List Nat → List Nat) (spec : Spec) (param : Param)
    (message : Message) (nonce : Nonce) : Option Codeword :=
  let codeword := Codeword.new H spec param message nonce
  if codeword.sum = spec.target_sum then some codeword else none

/-- The external seeded byte generator (`rand::StdRng`): a deterministic
byte stream together with the current read position. -/
structure Rng where
  stream : Nat → Nat
  pos : Nat

/-- `fill_bytes` for `n` bytes: read `n` consecutive stream bytes and
advance the position. -/
def Rng.fillBytes (r : Rng) (n : Nat) : List Nat × Rng :=
  ((List.range n).map (fun i => r.stream (r.pos + i) % 256),
   ⟨r.stream, r.pos + n⟩)

/-- `Nonce::random`. -/
def Nonce.random (r : Rng) : Nonce × Rng := r.fillBytes RAND_LEN

/-- `Param::random`. -/
def Param.random (param_len : Nat) (r : Rng) : Param × Rng :=
  r.fillBytes param_len

/-- `Hash::random`. -/
def Hash.random (r : Rng) : Hash × Rng := r.fillBytes 32

/-- `grind` from `code.rs`: up to `max_retries` attempts, each drawing a
fresh nonce and keeping it iff the codeword is valid.  The mutated RNG is
returned next to the result. -/
def grind (H : List Nat → List Nat) (spec : Spec) (max_retries : Nat)
    (param : Param) (message : Message) (rng : Rng) :
    Option (Codeword × Nonce) × Rng :=
  match max_retries with
  | 0 => (none, rng)
  | k + 1 =>
    let (rho, rng') := Nonce.random rng
    match new_valid H spec param message rho with
    | some codeword => (some (codeword, rho), rng')
    | none => grind H spec k param message rng'

/-- `.iter().enumerate().map(f)` starting at index `n`. -/
def mapIdxFrom (f : Nat → α → β) : Nat → List α → List β
  | _, [] => []
  | n, a :: as => f n a :: mapIdxFrom f (n + 1) as

/-- A one-time secret key (`Sk` in `lib.rs`). -/
structure Sk where
  param : Param
  start_hashes : List Hash
deriving DecidableEq, Repr

/-- `Pk::derive`: walk every chain from its start hash for
`chain_len - 1` steps. -/
def Pk.derive (H : List Nat → List Nat) (sk : Sk) (spec : Spec) : Pk :=
  { param := sk.param,
    end_hashes :=
      mapIdxFrom
        (fun chain_index start_hash =>
          hash_chain H sk.param chain_index start_hash 0 (spec.chain_len - 1))
        0 sk.start_hashes }

/-- Draw `n` random 32-byte hashes in sequence. -/
def drawHashes : Nat → Rng → List Hash × Rng
  | 0, r => ([], r)
  | n + 1, r =>
    let (h, r') := Hash.random r
    let (hs, r'') := drawHashes n r'
    (h :: hs, r'')

/-- `Sk::random`: `dimension` random start hashes under a fixed param. -/
def Sk.random (r : Rng) (param : Param) (spec : Spec) : Sk × Rng :=
  let (hs, r') := drawHashes spec.dimension r
  ({ param := param, start_hashes := hs }, r')

/-- `OtsSignature` from `lib.rs`. -/
structure OtsSignature where
  nonce : Nonce
  hashes : List Hash
deriving DecidableEq, Repr

/-- `HashTreeProof` from `hash_tree.rs`. -/
structure HashTreeProof where
  leaf_index : Nat
  path : List Hash
deriving DecidableEq, Repr

/-- `Signature` from `lib.rs`. -/
structure Signature where
  signature : OtsSignature
  hash_tree_proof : HashTreeProof
  public_key : Pk
deriving DecidableEq, Repr

/-- `chunks_exact(2)` on tree nodes: adjacent pairs, remainder dropped. -/
def chunkPairs : List α → List (α × α)
  | a :: b :: rest => (a, b) :: chunkPairs rest
  | _ => []

/-- One level-building step of `HashTree::new`: hash adjacent pairs of
`nodes` (which sit at level `level_idx`) into their parents. -/
def nextLevel (H : List Nat → List Nat) (param : Param) (level_idx : Nat)
    (nodes : List Hash) : List Hash :=
  mapIdxFrom
    (fun i pair => tweak_hash_tree_node H param pair.1 pair.2 level_idx i)
    0 (chunkPairs nodes)

/-- The levels list built by the `HashTree::new` loop: level `0` is `cur`,
and `height` further levels are stacked on top. -/
def buildLevels (H : List Nat → List Nat) (param : Param) :
    Nat → Nat → List Hash → List (List Hash)
  | 0, _, cur => [cur]
  | h + 1, lvl, cur =>
    cur :: buildLevels H param h (lvl + 1) (nextLevel H param lvl cur)

/-- The top level after `height` level-building steps. -/
def iterLevels (H : List Nat → List Nat) (param : Param) :
    Nat → Nat → List Hash → List Hash
  | 0, _, cur => cur
  | h + 1, lvl, cur => iterLevels H param h (lvl + 1) (nextLevel H param lvl cur)

/-- Fuel-driven binary logarithm; with fuel at least `n` this is
`Nat.log2 n` (see `log2Fuel_eq`), written structurally so that concrete
trees evaluate inside the kernel. -/
def log2Fuel : Nat → Nat → Nat
  | 0, _ => 0
  | fuel + 1, n => if n ≥ 2 then log2Fuel fuel (n / 2) + 1 else 0

/-- `usize::ilog2` (floor base-2 logarithm). -/
def ilog2 (n : Nat) : Nat := log2Fuel n n

/-- `HashTree` from `hash_tree.rs`. -/
structure HashTree where
  levels : List (List Hash)
  root : Hash
deriving DecidableEq, Repr

/-- `HashTree::new` (the leaf count must be a power of two in the source;
the assert is carried as a hypothesis by the theorems).  `root` is
`levels[height][0]`. -/
def HashTree.new (H : List Nat → List Nat) (param : Param)
    (leaves : List Hash) : HashTree :=
  let height := ilog2 leaves.length
  { levels := buildLevels H param height 0 leaves,
    root := (iterLevels H param height 0 leaves).headD [] }

/-- The sibling-collecting loop of `HashTree::get_proof` over the levels
below the root. -/
def pathAux (levels : List (List Hash)) (index : Nat) : List Hash :=
  match levels with
  | [] => []
  | lvl :: rest => lvl.getD (index ^^^ 1) [] :: pathAux rest (index / 2)

/-- `HashTree::get_proof`. -/
def HashTree.get_proof (t : HashTree) (leaf_index : Nat) : HashTreeProof :=
  { leaf_index := leaf_index, path := pathAux t.levels.dropLast leaf_index }

/-- The folding loop of `HashTreeProof::verify`; `level` is the
enumeration index of the path entry. -/
def verifyAux (H : List Nat → List Nat) (param : Param) :
    Hash → Nat → Nat → List Hash → Hash
  | cur, _, _, [] => cur
  | cur, index, level, sibling :: rest =>
    let lr := if index % 2 = 0 then (cur, sibling) else (sibling, cur)
    verifyAux H param
      (tweak_hash_tree_node H param lr.1 lr.2 level (index / 2))
      (index / 2) (level + 1) rest

/-- `HashTreeProof::verify`. -/
def HashTreeProof.verify (H : List Nat → List Nat) (p : HashTreeProof)
    (param : Param) (leaf root : Hash) : Bool :=
  verifyAux H param leaf p.leaf_index 0 p.path == root

/-- `Signer` from `lib.rs`. -/
structure Signer where
  rng : Rng
  max_retries : Nat
  spec : Spec
  param : Param
  hash_tree : HashTree
  key_pairs : List (Sk × Pk)
  root : Hash

/-- The key-generation loop of `Signer::new`. -/
def genKeyPairs (H : List Nat → List Nat) (spec : Spec) (param : Param) :
    Nat → Rng → List (Sk × Pk) × Rng
  | 0, r => ([], r)
  | n + 1, r =>
    let (sk, r') := Sk.random r param spec
    let pk := Pk.derive H sk spec
    let (rest, r'') := genKeyPairs H spec param n r'
    ((sk, pk) :: rest, r'')

/-- `Signer::new`. -/
def Signer.new (H : List Nat → List Nat) (rng : Rng) (max_retries : Nat)
    (spec : Spec) (lifetime : Nat) : Signer :=
  let (param, rng1) := Param.random spec.param_len rng
  let (key_pairs, rng2) := genKeyPairs H spec param lifetime rng1
  let pub_key_hashes :=
    key_pairs.map (fun kp => tweak_public_key_hash H param kp.2)
  let hash_tree := HashTree.new H param pub_key_hashes
  { rng := rng2, max_retries := max_retries, spec := spec, param := param,
    hash_tree := hash_tree, key_pairs := key_pairs, root := hash_tree.root }

/-- `Signer::sign` (the `epoch < key_pairs.len()` assert is carried as a
hypothesis by the theorems; out of range, `getD` reads a default pair). -/
def Signer.sign (H : List Nat → List Nat) (s : Signer) (epoch : Nat)
    (message : Message) : Option Signature × Signer :=
  let skpk := s.key_pairs.getD epoch ⟨⟨[], []⟩, ⟨[], []⟩⟩
  match grind H s.spec s.max_retries skpk.1.param message s.rng with
  | (none, rng') => (none, { s with rng := rng' })
  | (some (codeword, nonce), rng') =>
    let hashes :=
      mapIdxFrom
        (fun chain_index p => hash_chain H skpk.1.param chain_index p.1 0 p.2)
        0 (skpk.1.start_hashes.zip codeword.coords)
    let signature : OtsSignature := { nonce := nonce, hashes := hashes }
    let hash_tree_proof := s.hash_tree.get_proof epoch
    (some { signature := signature, hash_tree_proof := hash_tree_proof,
            public_key := skpk.2 },
     { s with rng := rng' })

/-- `verify_signature` from `lib.rs`. -/
def verify_signature (H : List Nat → List Nat) (spec : Spec) (param : Param)
    (message : Message) (signature : Signature) (root : Hash) : Bool :=
  let pk := signature.public_key
  match new_valid H spec pk.param message signature.signature.nonce with
  | none => false
  | some codeword =>
    let chain_len := spec.chain_len
    let end_hashes :=
      mapIdxFrom
        (fun chain_index p =>
          hash_chain H pk.param chain_index p.1 p.2 (chain_len - 1 - p.2))
        0 (signature.signature.hashes.zip codeword.coords)
    if end_hashes = pk.end_hashes then
      let leaf_hash := tweak_public_key_hash H param pk
      signature.hash_tree_proof.verify H param leaf_hash root
    else
      false

/-- The codeword-and-chain part of `verify_signature` (its steps 1 and 2),
which reads the param only out of `signature.public_key`. -/
def ots_verify (H : List Nat → List Nat) (spec : Spec) (message : Message)
    (signature : Signature) : Bool :=
  let pk := signature.public_key
  match new_valid H spec pk.param message signature.signature.nonce with
  | none => false
  | some codeword =>
    let chain_len := spec.chain_len
    let end_hashes :=
      mapIdxFrom
        (fun chain_index p =>
          hash_chain H pk.param chain_index p.1 p.2 (chain_len - 1 - p.2))
        0 (signature.signature.hashes.zip codeword.coords)
    end_hashes = pk.end_hashes

/-- The Merkle part of `verify_signature` (its step 3), which uses the
outer `param` for the leaf hash and the path nodes. -/
def merkle_verify (H : List Nat → List Nat) (param : Param)
    (signature : Signature) (root : Hash) : Bool :=
  signature.hash_tree_proof.verify H param
    (tweak_public_key_hash H param signature.public_key) root

/-- `ValidatorSignature` from `lib.rs`. -/
structure ValidatorSignature where
  epoch : Nat
  signature : Signature
  xmss_root : Hash
  param : Param
deriving DecidableEq, Repr

/-- `AggregatedSignature` from `lib.rs`. -/
structure AggregatedSignature where
  signatures : List ValidatorSignature
deriving DecidableEq, Repr

/-- `AggregatedVerifier` from `lib.rs`. -/
structure AggregatedVerifier where
  roots : List Hash
  spec : Spec
deriving DecidableEq, Repr

/-- `AggregatedVerifier::verify`. -/
def AggregatedVerifier.verify (H : List Nat → List Nat)
    (v : AggregatedVerifier) (message : Message)
    (aggregated : AggregatedSignature) : Bool :=
  aggregated.signatures.all (fun sig =>
    v.roots.contains sig.xmss_root &&
    verify_signature H v.spec sig.param message sig.signature sig.xmss_root)

/-! ### Concrete instances used by witnesses and counterexamples -/

/-- A digest collaborator that returns the empty byte string. -/
def emptyDigest : List Nat → List Nat := fun _ => []

/-- A degenerate spec with no coordinate material and target sum 0. -/
def emptySpec : Spec :=
  { message_hash_len := 0, coordinate_resolution_bits := 1,
    param_len := 0, target_sum := 0 }

/-- A signature whose embedded public key carries the param `[5]`,
different from the outer verification param `[]`. -/
def mismatchSig : Signature :=
  { signature := { nonce := [], hashes := [] },
    hash_tree_proof := { leaf_index := 0, path := [] },
    public_key := { param := [5], end_hashes := [] } }

/-- A placeholder validator signature used to exercise the empty-root-set
rejection. -/
def dummyValidatorSig : ValidatorSignature :=
  { epoch := 0, signature := mismatchSig, xmss_root := [], param := [] }

/-- A digest collaborator that returns 32 zero bytes, satisfying the
32-byte output contract of the permutation backend. -/
def zeroDigest32 : List Nat → List Nat := fun _ => List.replicate 32 0

/-- The identity digest: injective, so suitable for exercising the
collision-free Merkle soundness statement on concrete inputs. -/
def idDigest : List Nat → List Nat := fun l => l

/-- The RNG whose stream is constantly zero. -/
def zeroRng : Rng := ⟨fun _ => 0, 0⟩

/-- The RNG state advanced by `k` consumed bytes. -/
def advanceRng (r : Rng) (k : Nat) : Rng := ⟨r.stream, r.pos + k⟩

/-- The nonce drawn by the `t`-th (0-based) grinding attempt: each attempt
consumes `RAND_LEN` stream bytes. -/
def nonceAt (r : Rng) (t : Nat) : Nonce :=
  (Nonce.random (advanceRng r (RAND_LEN * t))).1

/-- A one-byte-of-coordinates spec with bit-valued coordinates and target
sum 0; grinding succeeds immediately under `zeroDigest32`. -/
def oneSpec : Spec :=
  { message_hash_len := 1, coordinate_resolution_bits := 1,
    param_len := 0, target_sum := 0 }

/-- A concrete signer with a single epoch under `oneSpec`. -/
def oneSigner : Signer := Signer.new zeroDigest32 zeroRng 5 oneSpec 1

/-- A concrete 32-byte message. -/
def oneMessage : Message := List.replicate 32 7

/-- The signature produced by `oneSigner` at epoch 0. -/
def oneSignature : Signature :=
  ((Signer.sign zeroDigest32 oneSigner 0 oneMessage).1).getD mismatchSig

/-- A signature whose public key stores one end hash while its OTS hash
vector is empty, so the verifier computes fewer end hashes than stored. -/
def shortEndSig : Signature :=
  { signature := { nonce := [], hashes := [] },
    hash_tree_proof := { leaf_index := 0, path := [] },
    public_key := { param := [], end_hashes := [[1]] } }

/-! ### Auxiliary lemmas -/

theorem xor_one_of_even {n : Nat} (h : n % 2 = 0) : n ^^^ 1 = n + 1 := by
  have hn : n = 2 * (n / 2) := by omega
  rw [hn]
  show Nat.bitwise bne (2 * (n / 2)) 1 = 2 * (n / 2) + 1
  rw [Nat.bitwise]
  rcases Nat.eq_zero_or_pos (n / 2) with h0 | h0
  · rw [h0]; simp
  · have h2 : ¬ (2 * (n / 2) = 0) := by omega
    have hm : 2 * (n / 2) % 2 = 0 := by omega
    have hd : 2 * (n / 2) / 2 = n / 2 := by omega
    have hx : Nat.bitwise bne (n / 2) 0 = n / 2 := Nat.xor_zero (n / 2)
    simp [h2, hm, hd, hx]
    omega

theorem xor_one_of_odd {n : Nat} (h : n % 2 = 1) : n ^^^ 1 = n - 1 := by
  have hn : n = 2 * (n / 2) + 1 := by omega
  rw [hn]
  show Nat.bitwise bne (2 * (n / 2) + 1) 1 = 2 * (n / 2) + 1 - 1
  rw [Nat.bitwise]
  have h2 : ¬ (2 * (n / 2) + 1 = 0) := by omega
  have hm : (2 * (n / 2) + 1) % 2 = 1 := by omega
  have hd : (2 * (n / 2) + 1) / 2 = n / 2 := by omega
  have hx : Nat.bitwise bne (n / 2) 0 = n / 2 := Nat.xor_zero (n / 2)
  simp [h2, hm, hd, hx]
  omega

theorem foldl_keccak_update (hs : List (List Nat)) (st : List Nat) :
    hs.foldl Keccak.update st = st ++ hs.flatten := by
  induction hs generalizing st with
  | nil => simp
  | cons h t ih => simp [Keccak.update, ih, List.append_assoc]

theorem hash_chain_zero (H : List Nat → List Nat) (param : Param)
    (chain_index : Nat) (h : Hash) (p : Nat) :
    hash_chain H param chain_index h p 0 = h := rfl

theorem hash_chain_compose (H : List Nat → List Nat) (param : Param)
    (chain_index : Nat) (h : Hash) (p k1 k2 : Nat) :
    hash_chain H param chain_index
      (hash_chain H param chain_index h p k1) (p + k1) k2
    = hash_chain H param chain_index h p (k1 + k2) := by
  induction k2 with
  | zero => rfl
  | succ k ih =>
    show tweak_hash_chain H param chain_index (p + k1 + k + 1) _ = _
    rw [ih]
    have : k1 + (k + 1) = (k1 + k) + 1 := by omega
    rw [this]
    show _ = tweak_hash_chain H param chain_index (p + (k1 + k) + 1) _
    have : p + k1 + k + 1 = p + (k1 + k) + 1 := by omega
    rw [this]

theorem chunksN_length (w n : Nat) (l : List Bool) :
    (chunksN w n l).length = n := by
  induction n generalizing l with
  | zero => rfl
  | succ m ih => simp [chunksN, ih]

theorem chunksExact_length (w : Nat) (l : List Bool) :
    (chunksExact w l).length = l.length / w := by
  rw [chunksExact, chunksN_length]

theorem chunksN_mem_length {w : Nat} {c : List Bool} :
    ∀ {n : Nat} {l : List Bool}, n * w ≤ l.length → c ∈ chunksN w n l →
      c.length = w := by
  intro n
  induction n with
  | zero => intro l _ hc; cases hc
  | succ m ih =>
    intro l hn hc
    have hw : w ≤ l.length := by
      have hmul : (m + 1) * w = m * w + w := by ring
      omega
    rcases List.mem_cons.mp hc with h1 | h1
    · subst h1
      simp only [List.length_take]
      omega
    · apply ih _ h1
      simp only [List.length_drop]
      have hmul : (m + 1) * w = m * w + w := by ring
      omega

theorem chunksExact_mem_length {w : Nat} {l : List Bool} {c : List Bool}
    (hc : c ∈ chunksExact w l) : c.length = w := by
  apply chunksN_mem_length _ hc
  calc l.length / w * w ≤ l.length := Nat.div_mul_le_self _ _

theorem chunksExact_append {w : Nat} (l1 l2 : List Bool)
    (h1 : l1.length = w) (hw : 0 < w) :
    chunksExact w (l1 ++ l2) = l1 :: chunksExact w l2 := by
  have hlen : (l1 ++ l2).length / w = l2.length / w + 1 := by
    rw [List.length_append, h1, Nat.add_comm, Nat.add_div_right _ hw]
  rw [chunksExact, hlen, chunksN, ← h1, List.take_left, List.drop_left,
    chunksExact]

theorem loadLsb0_lt (bits : List Bool) :
    loadLsb0 bits < 2 ^ bits.length := by
  induction bits with
  | nil => simp [loadLsb0]
  | cons b t ih =>
    have h : loadLsb0 (b :: t) = 2 * loadLsb0 t + cond b 1 0 := rfl
    rw [h, List.length_cons, pow_succ]
    rcases b <;> simp <;> omega

theorem bytesToBits_cons (b : Nat) (bs : List Nat) :
    bytesToBits (b :: bs) = byteBitsLsb0 b ++ bytesToBits bs := by
  simp [bytesToBits]

theorem byteBitsLsb0_length (b : Nat) : (byteBitsLsb0 b).length = 8 := by
  simp [byteBitsLsb0]

theorem bytesToBits_length (bs : List Nat) :
    (bytesToBits bs).length = 8 * bs.length := by
  induction bs with
  | nil => simp [bytesToBits]
  | cons b t ih =>
    rw [bytesToBits_cons]
    simp [byteBitsLsb0_length, ih]
    omega

theorem bytes_to_coordinates_length (bytes : List Nat) (w : Nat) :
    (bytes_to_coordinates bytes w).length = 8 * bytes.length / w := by
  simp [bytes_to_coordinates, chunksExact_length, bytesToBits_length]

theorem bytes_to_coordinates_lt {bytes : List Nat} {w : Nat} {x : Nat}
    (hx : x ∈ bytes_to_coordinates bytes w) : x < 2 ^ w := by
  simp only [bytes_to_coordinates, List.mem_map] at hx
  obtain ⟨c, hc, rfl⟩ := hx
  have := loadLsb0_lt c
  rwa [chunksExact_mem_length hc] at this

theorem mapIdxFrom_length (f : Nat → α → β) (n : Nat) (l : List α) :
    (mapIdxFrom f n l).length = l.length := by
  induction l generalizing n with
  | nil => rfl
  | cons a t ih => simp [mapIdxFrom, ih]

theorem zip_take_right (l1 : List α) (l2 : List β) :
    l1.zip l2 = (l1.take l2.length).zip l2 := by
  induction l1 generalizing l2 with
  | nil => simp
  | cons a t ih =>
    cases l2 with
    | nil => simp
    | cons b u => simp [ih u]

/-! ### Claim theorems -/

/-- C6: `hash_chain` is a monoid action on walk lengths: zero steps return
the start hash unchanged, and walking `k1` steps and then `k2` more steps
from the advanced position equals walking `k1 + k2` steps. -/
theorem hash_chain_monoid_action (H : List Nat → List Nat) (param : Param)
    (i : Nat) (h : Hash) (p : Nat) :
    hash_chain H param i h p 0 = h ∧
    ∀ k1 k2,
      hash_chain H param i (hash_chain H param i h p k1) (p + k1) k2
        = hash_chain H param i h p (k1 + k2) :=
  ⟨hash_chain_zero H param i h p,
   fun k1 k2 => hash_chain_compose H param i h p k1 k2⟩

/-- C4: the four tweaked hashes feed the permutation exactly the byte
strings `param ‖ 0x02 ‖ nonce ‖ message`,
`param ‖ 0x00 ‖ prev ‖ be_u64(chain_index) ‖ be_u64(pos_in_chain)`,
`param ‖ 0x01 ‖ be_u32(level) ‖ be_u32(index) ‖ left ‖ right` and
`param ‖ 0x01 ‖ end_hashes[0] ‖ end_hashes[1] ‖ …`; and `pos_in_chain` is
the 1-based output position: the hash returned after `k + 1` chain steps
from position `p` is tweaked with `pos_in_chain = p + k + 1`, its own
position in the chain. -/
theorem tweaked_hash_permutation_inputs (H : List Nat → List Nat)
    (param : Param) (message nonce prev left right : List Nat)
    (ci pos level index : Nat) (pk : Pk) :
    tweak_hash_message H param message nonce
      = H (specMessageInput param message nonce) ∧
    tweak_hash_chain H param ci pos prev
      = H (specChainInput param ci pos prev) ∧
    tweak_hash_tree_node H param left right level index
      = H (specTreeInput param left right level index) ∧
    tweak_public_key_hash H param pk = H (specPkInput param pk) ∧
    ∀ h p k, hash_chain H param ci h p (k + 1)
      = tweak_hash_chain H param ci (p + k + 1) (hash_chain H param ci h p k) := by
  refine ⟨?_, ?_, ?_, ?_, fun h p k => rfl⟩
  · apply congrArg H
    simp [Keccak.update, Keccak.v256, specMessageInput, TWEAK_MESSAGE,
      List.append_assoc]
  · apply congrArg H
    simp [Keccak.update, Keccak.v256, specChainInput, TWEAK_CHAIN,
      List.append_assoc]
  · apply congrArg H
    simp [Keccak.update, Keccak.v256, specTreeInput, TWEAK_TREE,
      List.append_assoc]
  · unfold tweak_public_key_hash Keccak.finalize
    rw [foldl_keccak_update]
    apply congrArg H
    simp [Keccak.update, Keccak.v256, specPkInput, TWEAK_TREE,
      List.append_assoc]

/-- C2: aggregated verification accepts iff every element's root is
registered and its signature verifies under its own param and root; the
empty aggregate is accepted for any root set, and any non-empty aggregate
is rejected when the root set is empty. -/
theorem aggregated_verify_iff (H : List Nat → List Nat)
    (v : AggregatedVerifier) (message : Message)
    (aggregated : AggregatedSignature) :
    (AggregatedVerifier.verify H v message aggregated = true ↔
      ∀ a ∈ aggregated.signatures, a.xmss_root ∈ v.roots ∧
        verify_signature H v.spec a.param message a.signature a.xmss_root
          = true) ∧
    (aggregated.signatures = [] →
      AggregatedVerifier.verify H v message aggregated = true) ∧
    (v.roots = [] → aggregated.signatures ≠ [] →
      AggregatedVerifier.verify H v message aggregated = false) := by
  refine ⟨?_, ?_, ?_⟩
  · simp [AggregatedVerifier.verify, List.all_eq_true, Bool.and_eq_true,
      List.contains, List.elem_iff]
  · intro hnil
    simp [AggregatedVerifier.verify, hnil]
  · intro hroots hne
    rcases hsig : aggregated.signatures with _ | ⟨a, t⟩
    · exact absurd hsig hne
    · simp [AggregatedVerifier.verify, hsig, hroots]

/-- Witness for C2 at concrete inputs: the empty aggregate is accepted
against an empty root set, and a one-element aggregate is rejected against
an empty root set. -/
theorem aggregated_verify_iff_witness :
    AggregatedVerifier.verify emptyDigest ⟨[], emptySpec⟩ [] ⟨[]⟩ = true ∧
    AggregatedVerifier.verify emptyDigest ⟨[], emptySpec⟩ []
      ⟨[dummyValidatorSig]⟩ = false :=
  ⟨(aggregated_verify_iff emptyDigest ⟨[], emptySpec⟩ [] ⟨[]⟩).2.1 rfl,
   (aggregated_verify_iff emptyDigest ⟨[], emptySpec⟩ []
      ⟨[dummyValidatorSig]⟩).2.2 rfl (by simp)⟩

/-- C8: `verify_signature` factors as the conjunction of an OTS check that
reads the param only out of `signature.public_key` (steps 1 and 2) and a
Merkle check that hashes the leaf with the outer `param` (step 3); no
equality between the two params is required, witnessed by a concrete
accepted signature whose embedded param differs from the outer one. -/
theorem verify_signature_factorization :
    (∀ (H : List Nat → List Nat) (spec : Spec) (param : Param)
       (message : Message) (signature : Signature) (root : Hash),
      verify_signature H spec param message signature root =
        (ots_verify H spec message signature &&
         merkle_verify H param signature root)) ∧
    mismatchSig.public_key.param ≠ ([] : Param) ∧
    verify_signature emptyDigest emptySpec [] (List.replicate 32 0)
      mismatchSig [] = true := by
  refine ⟨?_, by decide, by decide⟩
  intro H spec param message signature root
  unfold verify_signature ots_verify merkle_verify
  cases hnv : new_valid H spec signature.public_key.param message
      signature.signature.nonce with
  | none => simp [hnv]
  | some codeword =>
    simp only [hnv]
    by_cases hend :
        mapIdxFrom
          (fun chain_index p =>
            hash_chain H signature.public_key.param chain_index p.1 p.2
              (spec.chain_len - 1 - p.2))
          0 (signature.signature.hashes.zip codeword.coords)
        = signature.public_key.end_hashes
    · simp [hend]
    · simp [hend]

theorem byteBitsLsb0_mod (b : Nat) : byteBitsLsb0 b = byteBitsLsb0 (b % 256) := by
  have h256 : (256 : Nat) = 2 ^ 8 := by norm_num
  simp only [byteBitsLsb0]
  apply List.map_congr_left
  intro j hj
  rw [List.mem_range] at hj
  rw [h256, Nat.testBit_mod_two_pow]
  simp [hj]

set_option maxRecDepth 4096 in
theorem load_byteBits (b : Nat) : loadLsb0 (byteBitsLsb0 b) = b % 256 := by
  have key : ∀ c, c < 256 → loadLsb0 (byteBitsLsb0 c) = c := by decide
  rw [byteBitsLsb0_mod]
  exact key _ (Nat.mod_lt _ (by norm_num))

theorem bytes_to_coordinates_eight (bytes : List Nat)
    (hb : ∀ b ∈ bytes, b < 256) : bytes_to_coordinates bytes 8 = bytes := by
  induction bytes with
  | nil => rfl
  | cons b t ih =>
    unfold bytes_to_coordinates
    rw [bytesToBits_cons,
      chunksExact_append _ _ (byteBitsLsb0_length b) (by norm_num),
      List.map_cons, load_byteBits,
      Nat.mod_eq_of_lt (hb b (List.mem_cons_self b t))]
    have ht := ih (fun x hx => hb x (List.mem_cons_of_mem b hx))
    unfold bytes_to_coordinates at ht
    rw [ht]

theorem codeword_new_coords (H : List Nat → List Nat) (spec : Spec)
    (p : Param) (m : Message) (n : Nonce) :
    (Codeword.new H spec p m n).coords =
      bytes_to_coordinates
        ((tweak_hash_message H p m n).take spec.message_hash_len)
        spec.coordinate_resolution_bits := rfl

theorem codeword_length {H : List Nat → List Nat} (spec : Spec) (p : Param)
    (m : Message) (n : Nonce) (hH : ∀ l, (H l).length = 32)
    (hmhl : spec.message_hash_len ≤ 32) :
    (Codeword.new H spec p m n).coords.length = spec.dimension := by
  rw [codeword_new_coords, bytes_to_coordinates_length]
  have h32 : (tweak_hash_message H p m n).length = 32 := hH _
  rw [List.length_take, h32, Spec.dimension]
  have hmin : min spec.message_hash_len 32 = spec.message_hash_len := by omega
  rw [hmin, Nat.mul_comm]

theorem codeword_length_le (H : List Nat → List Nat) (spec : Spec)
    (p : Param) (m : Message) (n : Nonce) :
    (Codeword.new H spec p m n).coords.length ≤ spec.dimension := by
  rw [codeword_new_coords, bytes_to_coordinates_length, List.length_take,
    Spec.dimension, Nat.mul_comm spec.message_hash_len 8]
  apply Nat.div_le_div_right
  apply Nat.mul_le_mul_left
  omega

theorem codeword_coords_lt {H : List Nat → List Nat} {spec : Spec}
    {p : Param} {m : Message} {n : Nonce} {c : Nat}
    (hc : c ∈ (Codeword.new H spec p m n).coords) : c < spec.chain_len := by
  rw [codeword_new_coords] at hc
  exact bytes_to_coordinates_lt hc

/-- C3: `Codeword::new` only depends on the first `message_hash_len` bytes
of the tweaked message hash, yields `dimension` coordinates each below
`2^w`, splits bytes into `w`-bit coordinates LSB-first (the byte
`0b01101100` with `w = 2` gives `[0b00, 0b11, 0b10, 0b01]`), and with
`w = 8` returns the raw truncated bytes. -/
theorem codeword_construction (H : List Nat → List Nat) (spec : Spec)
    (p : Param) (m : Message) (n : Nonce) (hH : ∀ l, (H l).length = 32)
    (hmhl : spec.message_hash_len ≤ 32) :
    Codeword.new H spec p m n =
      Codeword.new (fun x => (H x).take spec.message_hash_len) spec p m n ∧
    (Codeword.new H spec p m n).coords.length = spec.dimension ∧
    (∀ c ∈ (Codeword.new H spec p m n).coords,
      c < 2 ^ spec.coordinate_resolution_bits) ∧
    bytes_to_coordinates [0b01101100] 2 = [0b00, 0b11, 0b10, 0b01] ∧
    (∀ bytes : List Nat, (∀ b ∈ bytes, b < 256) →
      bytes_to_coordinates bytes 8 = bytes) := by
  refine ⟨?_, codeword_length spec p m n hH hmhl,
    fun c hc => codeword_coords_lt hc, by decide,
    fun bytes hb => bytes_to_coordinates_eight bytes hb⟩
  unfold Codeword.new tweak_hash_message Keccak.finalize
  rw [Codeword.mk.injEq, List.take_take, Nat.min_self]

/-- Witness for C3 at concrete inputs: the all-zero 32-byte digest under
`SPEC_1`, the `0b01101100` test vector, and a two-byte `w = 8` example. -/
theorem codeword_construction_witness :
    (Codeword.new zeroDigest32 SPEC_1 [] (List.replicate 32 7)
      (List.replicate 23 0)).coords.length = SPEC_1.dimension ∧
    bytes_to_coordinates [108] 2 = [0, 3, 2, 1] ∧
    bytes_to_coordinates [108, 166] 8 = [108, 166] := by
  obtain ⟨-, h1, -, h2, h3⟩ :=
    codeword_construction zeroDigest32 SPEC_1 [] (List.replicate 32 7)
      (List.replicate 23 0) (fun l => by simp [zeroDigest32]) (by decide)
  exact ⟨h1, h2, h3 [108, 166] (by decide)⟩

theorem nonceAt_zero (r : Rng) : nonceAt r 0 = (Nonce.random r).1 := by
  simp [nonceAt, advanceRng]

theorem nonceAt_succ (r : Rng) (t : Nat) :
    nonceAt r (t + 1) = nonceAt (advanceRng r RAND_LEN) t := by
  simp only [nonceAt, advanceRng, Nonce.random, Rng.fillBytes]
  have harith : r.pos + RAND_LEN * (t + 1) = r.pos + RAND_LEN + RAND_LEN * t := by
    ring
  rw [harith]

theorem nonce_random_advance (r : Rng) :
    (Nonce.random r).2 = advanceRng r RAND_LEN := rfl

theorem new_valid_some {H : List Nat → List Nat} {spec : Spec} {p : Param}
    {m : Message} {n : Nonce} {cw : Codeword}
    (h : new_valid H spec p m n = some cw) :
    cw = Codeword.new H spec p m n ∧ cw.sum = spec.target_sum := by
  unfold new_valid at h
  by_cases hsum : (Codeword.new H spec p m n).sum = spec.target_sum
  · simp [hsum] at h
    exact ⟨h.symm, h ▸ hsum⟩
  · simp [hsum] at h

theorem new_valid_none {H : List Nat → List Nat} {spec : Spec} {p : Param}
    {m : Message} {n : Nonce} (h : new_valid H spec p m n = none) :
    (Codeword.new H spec p m n).sum ≠ spec.target_sum := by
  unfold new_valid at h
  by_cases hsum : (Codeword.new H spec p m n).sum = spec.target_sum
  · simp [hsum] at h
  · exact hsum

theorem grind_some {H : List Nat → List Nat} {spec : Spec} {p : Param}
    {m : Message} {cw : Codeword} {n : Nonce} :
    ∀ {k : Nat} {rng : Rng}, (grind H spec k p m rng).1 = some (cw, n) →
      new_valid H spec p m n = some cw := by
  intro k
  induction k with
  | zero => intro rng h; simp [grind] at h
  | succ j ih =>
    intro rng h
    rw [grind] at h
    cases hnv : new_valid H spec p m (Nonce.random rng).1 with
    | some c =>
      simp [hnv] at h
      obtain ⟨hc, hn⟩ := h
      rw [← hn, hnv, hc]
    | none =>
      simp [hnv] at h
      exact ih h

theorem grind_none_iff (H : List Nat → List Nat) (spec : Spec) (p : Param)
    (m : Message) :
    ∀ (k : Nat) (rng : Rng),
      ((grind H spec k p m rng).1 = none ↔
        ∀ t < k, (Codeword.new H spec p m (nonceAt rng t)).sum ≠ spec.target_sum) ∧
      ((grind H spec k p m rng).1 = none →
        (grind H spec k p m rng).2 = advanceRng rng (RAND_LEN * k)) := by
  intro k
  induction k with
  | zero =>
    intro rng
    refine ⟨by simp [grind], fun _ => ?_⟩
    show rng = advanceRng rng (RAND_LEN * 0)
    simp [advanceRng]
  | succ j ih =>
    intro rng
    rw [grind]
    cases hnv : new_valid H spec p m (Nonce.random rng).1 with
    | some c =>
      simp only [hnv]
      constructor
      · constructor
        · intro h
          exact nomatch h
        · intro hall
          exfalso
          have h0 := hall 0 (Nat.succ_pos j)
          rw [nonceAt_zero] at h0
          exact h0 ((new_valid_some hnv).1 ▸ (new_valid_some hnv).2)
      · intro h
        exact nomatch h
    | none =>
      simp only [hnv, nonce_random_advance]
      obtain ⟨ih1, ih2⟩ := ih (advanceRng rng RAND_LEN)
      constructor
      · rw [ih1]
        constructor
        · intro hall t ht
          cases t with
          | zero =>
            rw [nonceAt_zero]
            exact new_valid_none hnv
          | succ u =>
            rw [nonceAt_succ]
            exact hall u (by omega)
        · intro hall t ht
          rw [← nonceAt_succ]
          exact hall (t + 1) (by omega)
      · intro hn
        rw [ih2 hn]
        show advanceRng (advanceRng rng RAND_LEN) (RAND_LEN * j)
          = advanceRng rng (RAND_LEN * (j + 1))
        simp only [advanceRng]
        rw [Rng.mk.injEq]
        exact ⟨rfl, by ring⟩

/-- C7: `grind` either returns a codeword-nonce pair whose codeword is the
one computed from the returned nonce and sums to `target_sum`, or returns
nothing precisely when every one of the `max_retries` sampled nonces fails
the sum check (consuming exactly `max_retries · RAND_LEN` RNG bytes);
`max_retries = 0` always yields nothing, and `Signer::sign` returns
nothing exactly when its grind call does. -/
theorem grind_exhaustion (H : List Nat → List Nat) (spec : Spec)
    (max_retries : Nat) (p : Param) (m : Message) (rng : Rng) :
    (∀ cw n, (grind H spec max_retries p m rng).1 = some (cw, n) →
      cw = Codeword.new H spec p m n ∧ cw.sum = spec.target_sum) ∧
    ((grind H spec max_retries p m rng).1 = none ↔
      ∀ t < max_retries,
        (Codeword.new H spec p m (nonceAt rng t)).sum ≠ spec.target_sum) ∧
    ((grind H spec max_retries p m rng).1 = none →
      (grind H spec max_retries p m rng).2
        = advanceRng rng (RAND_LEN * max_retries)) ∧
    (max_retries = 0 → (grind H spec max_retries p m rng).1 = none) ∧
    (∀ (s : Signer) (epoch : Nat),
      (Signer.sign H s epoch m).1 = none ↔
        (grind H s.spec s.max_retries
          ((s.key_pairs.getD epoch ⟨⟨[], []⟩, ⟨[], []⟩⟩).1.param) m s.rng).1
          = none) := by
  refine ⟨?_, (grind_none_iff H spec p m max_retries rng).1,
    (grind_none_iff H spec p m max_retries rng).2, ?_, ?_⟩
  · intro cw n h
    have hv := grind_some h
    exact ⟨(new_valid_some hv).1, (new_valid_some hv).2⟩
  · intro h; subst h; simp [grind]
  · intro s epoch
    rcases hg : grind H s.spec s.max_retries
        ((s.key_pairs.getD epoch ⟨⟨[], []⟩, ⟨[], []⟩⟩).1.param) m s.rng
      with ⟨o, rng2⟩
    rw [List.getD_eq_getElem?_getD] at hg
    cases o <;> simp [Signer.sign, hg]

/-- Witness for C7 at concrete inputs: zero retries yield nothing, and one
retry under the zero digest and zero RNG returns the all-zero nonce with
an all-zero codeword summing to the target 0. -/
theorem grind_exhaustion_witness :
    (grind emptyDigest emptySpec 0 [] [] zeroRng).1 = none ∧
    (grind zeroDigest32 oneSpec 1 [] oneMessage zeroRng).1
      = some (⟨List.replicate 8 0⟩, List.replicate 23 0) ∧
    (⟨List.replicate 8 0⟩ : Codeword)
      = Codeword.new zeroDigest32 oneSpec [] oneMessage (List.replicate 23 0) ∧
    (⟨List.replicate 8 0⟩ : Codeword).sum = oneSpec.target_sum := by
  have h0 := (grind_exhaustion emptyDigest emptySpec 0 [] [] zeroRng).2.2.2.1 rfl
  have hsome : (grind zeroDigest32 oneSpec 1 [] oneMessage zeroRng).1
      = some (⟨List.replicate 8 0⟩, List.replicate 23 0) := by decide
  have h1 := (grind_exhaustion zeroDigest32 oneSpec 1 [] oneMessage zeroRng).1
    ⟨List.replicate 8 0⟩ (List.replicate 23 0) hsome
  exact ⟨h0, hsome, h1.1, h1.2⟩

/-- C9: the end-hash comparison reads at most the first `dimension` OTS
hashes — a longer hash vector verifies exactly like its truncation to
`dimension` entries — and when fewer end hashes are computed than the
public key stores, the comparison fails and verification returns false. -/
theorem verify_signature_hashes_window (H : List Nat → List Nat)
    (spec : Spec) (param : Param) (message : Message) (root : Hash)
    (sig : Signature) :
    (∀ hashes : List Hash,
      verify_signature H spec param message
        { sig with signature :=
            { nonce := sig.signature.nonce, hashes := hashes } } root
      = verify_signature H spec param message
        { sig with signature :=
            { nonce := sig.signature.nonce,
              hashes := hashes.take spec.dimension } } root) ∧
    ((∀ l, (H l).length = 32) → spec.message_hash_len ≤ 32 →
      min sig.signature.hashes.length spec.dimension
        < sig.public_key.end_hashes.length →
      verify_signature H spec param message sig root = false) := by
  constructor
  · intro hashes
    unfold verify_signature
    cases hnv : new_valid H spec sig.public_key.param message
        sig.signature.nonce with
    | none => simp [hnv]
    | some cw =>
      simp only [hnv]
      have hle : cw.coords.length ≤ spec.dimension := by
        rw [(new_valid_some hnv).1]
        exact codeword_length_le H spec sig.public_key.param message
          sig.signature.nonce
      have hzip : hashes.zip cw.coords
          = (hashes.take spec.dimension).zip cw.coords := by
        rw [zip_take_right hashes cw.coords,
          zip_take_right (hashes.take spec.dimension) cw.coords,
          List.take_take, Nat.min_eq_left hle]
      rw [hzip]
  · intro hH hmhl hshort
    unfold verify_signature
    cases hnv : new_valid H spec sig.public_key.param message
        sig.signature.nonce with
    | none => simp [hnv]
    | some cw =>
      simp only [hnv]
      have hdim : cw.coords.length = spec.dimension := by
        rw [(new_valid_some hnv).1]
        exact codeword_length spec sig.public_key.param message
          sig.signature.nonce hH hmhl
      have hlen :
          (mapIdxFrom
            (fun chain_index p =>
              hash_chain H sig.public_key.param chain_index p.1 p.2
                (spec.chain_len - 1 - p.2))
            0 (sig.signature.hashes.zip cw.coords)).length
          = min sig.signature.hashes.length spec.dimension := by
        rw [mapIdxFrom_length, List.length_zip, hdim]
      have hne :
          mapIdxFrom
            (fun chain_index p =>
              hash_chain H sig.public_key.param chain_index p.1 p.2
                (spec.chain_len - 1 - p.2))
            0 (sig.signature.hashes.zip cw.coords)
          ≠ sig.public_key.end_hashes := by
        intro heq
        rw [heq] at hlen
        omega
      simp [hne]

/-- Witness for C9 at concrete inputs: a signature storing one end hash
but no OTS hashes is rejected, and appending a spare hash to the
one-signer signature verifies exactly like its truncation. -/
theorem verify_signature_hashes_window_witness :
    verify_signature zeroDigest32 emptySpec [] oneMessage shortEndSig []
      = false ∧
    verify_signature zeroDigest32 oneSpec oneSigner.param oneMessage
      { oneSignature with signature :=
          { nonce := oneSignature.signature.nonce,
            hashes := oneSignature.signature.hashes ++ [[9]] } }
      oneSigner.root
    = verify_signature zeroDigest32 oneSpec oneSigner.param oneMessage
      { oneSignature with signature :=
          { nonce := oneSignature.signature.nonce,
            hashes := (oneSignature.signature.hashes ++ [[9]]).take
              oneSpec.dimension } }
      oneSigner.root := by
  constructor
  · exact (verify_signature_hashes_window zeroDigest32 emptySpec []
      oneMessage [] shortEndSig).2 (fun l => by simp [zeroDigest32])
      (by decide) (by decide)
  · exact (verify_signature_hashes_window zeroDigest32 oneSpec
      oneSigner.param oneMessage oneSigner.root oneSignature).1
      (oneSignature.signature.hashes ++ [[9]])

theorem grind_rng (H : List Nat → List Nat) (spec : Spec) (p : Param)
    (m : Message) :
    ∀ (k : Nat) (rng : Rng),
      (grind H spec k p m rng).2.stream = rng.stream ∧
      rng.pos ≤ (grind H spec k p m rng).2.pos := by
  intro k
  induction k with
  | zero => intro rng; exact ⟨rfl, Nat.le_refl _⟩
  | succ j ih =>
    intro rng
    rw [grind]
    cases hnv : new_valid H spec p m (Nonce.random rng).1 with
    | some c =>
      simp only [hnv]
      exact ⟨rfl, Nat.le_add_right _ _⟩
    | none =>
      simp only [hnv]
      obtain ⟨ih1, ih2⟩ := ih (Nonce.random rng).2
      refine ⟨ih1, Nat.le_trans ?_ ih2⟩
      exact Nat.le_add_right _ _

/-- C10: signing mutates nothing but the RNG: the returned signer keeps
the spec, param, root, Merkle tree, retry bound and every stored key pair
byte-for-byte, while its RNG is exactly the RNG the grind call returned —
same stream, position advanced. -/
theorem signer_sign_frame (H : List Nat → List Nat) (s : Signer)
    (epoch : Nat) (message : Message)
    (_he : epoch < s.key_pairs.length) :
    ((Signer.sign H s epoch message).2).spec = s.spec ∧
    ((Signer.sign H s epoch message).2).param = s.param ∧
    ((Signer.sign H s epoch message).2).root = s.root ∧
    ((Signer.sign H s epoch message).2).hash_tree = s.hash_tree ∧
    ((Signer.sign H s epoch message).2).key_pairs = s.key_pairs ∧
    ((Signer.sign H s epoch message).2).max_retries = s.max_retries ∧
    ((Signer.sign H s epoch message).2).rng
      = (grind H s.spec s.max_retries
          ((s.key_pairs.getD epoch ⟨⟨[], []⟩, ⟨[], []⟩⟩).1.param)
          message s.rng).2 ∧
    ((Signer.sign H s epoch message).2).rng.stream = s.rng.stream ∧
    s.rng.pos ≤ ((Signer.sign H s epoch message).2).rng.pos := by
  have hr := grind_rng H s.spec
    ((s.key_pairs.getD epoch ⟨⟨[], []⟩, ⟨[], []⟩⟩).1.param) message
    s.max_retries s.rng
  rcases hg : grind H s.spec s.max_retries
      ((s.key_pairs.getD epoch ⟨⟨[], []⟩, ⟨[], []⟩⟩).1.param) message s.rng
    with ⟨o, rng2⟩
  rw [hg] at hr
  rw [List.getD_eq_getElem?_getD] at hg
  cases o <;> simp [Signer.sign, hg] <;> exact ⟨hr.1, hr.2⟩

/-- Witness for C10 at the concrete one-epoch signer: key pairs, root,
and RNG stream survive the signing call, and the RNG position advanced. -/
theorem signer_sign_frame_witness :
    ((Signer.sign zeroDigest32 oneSigner 0 oneMessage).2).key_pairs
      = oneSigner.key_pairs ∧
    ((Signer.sign zeroDigest32 oneSigner 0 oneMessage).2).root
      = oneSigner.root ∧
    ((Signer.sign zeroDigest32 oneSigner 0 oneMessage).2).rng.stream
      = oneSigner.rng.stream ∧
    oneSigner.rng.pos
      ≤ ((Signer.sign zeroDigest32 oneSigner 0 oneMessage).2).rng.pos := by
  obtain ⟨-, -, h3, -, h5, -, -, h8, h9⟩ :=
    signer_sign_frame zeroDigest32 oneSigner 0 oneMessage (by decide)
  exact ⟨h5, h3, h8, h9⟩

theorem chunkPairs_length : ∀ (l : List α), (chunkPairs l).length = l.length / 2
  | [] => by simp [chunkPairs]
  | [a] => by simp [chunkPairs]
  | a :: b :: rest => by
    simp only [chunkPairs, List.length_cons, chunkPairs_length rest]
    omega

theorem chunkPairs_getD : ∀ (l : List α) (k : Nat) (d : α),
    2 * k + 1 < l.length →
    (chunkPairs l).getD k (d, d) = (l.getD (2 * k) d, l.getD (2 * k + 1) d)
  | [], k, d, h => by simp at h
  | [a], k, d, h => by simp at h
  | a :: b :: rest, 0, d, _ => by simp [chunkPairs]
  | a :: b :: rest, k + 1, d, h => by
    have hlt : 2 * k + 1 < rest.length := by
      simp only [List.length_cons] at h
      omega
    have h1 : 2 * (k + 1) = 2 * k + 1 + 1 := by ring
    simp only [chunkPairs, List.getD_cons_succ, h1]
    exact chunkPairs_getD rest k d hlt

theorem mapIdxFrom_getD (f : Nat → α → β) :
    ∀ (l : List α) (n k : Nat) (d : α) (d' : β), k < l.length →
      (mapIdxFrom f n l).getD k d' = f (n + k) (l.getD k d)
  | [], n, k, d, d', h => by simp at h
  | a :: t, n, 0, d, d', _ => by simp [mapIdxFrom]
  | a :: t, n, k + 1, d, d', h => by
    have hlt : k < t.length := by
      simp only [List.length_cons] at h
      omega
    simp only [mapIdxFrom, List.getD_cons_succ]
    rw [mapIdxFrom_getD f t (n + 1) k d d' hlt]
    congr 1
    omega

theorem nextLevel_length (H : List Nat → List Nat) (param : Param)
    (lvl : Nat) (nodes : List Hash) :
    (nextLevel H param lvl nodes).length = nodes.length / 2 := by
  rw [nextLevel, mapIdxFrom_length, chunkPairs_length]

theorem nextLevel_getD (H : List Nat → List Nat) (param : Param)
    (lvl : Nat) (nodes : List Hash) (k : Nat)
    (h : 2 * k + 1 < nodes.length) :
    (nextLevel H param lvl nodes).getD k [] =
      tweak_hash_tree_node H param (nodes.getD (2 * k) [])
        (nodes.getD (2 * k + 1) []) lvl k := by
  have hk : k < (chunkPairs nodes).length := by
    rw [chunkPairs_length]
    omega
  rw [nextLevel,
    mapIdxFrom_getD _ (chunkPairs nodes) 0 k ([], []) [] hk,
    chunkPairs_getD nodes k [] h]
  simp

theorem buildLevels_ne_nil (H : List Nat → List Nat) (param : Param)
    (h lvl : Nat) (cur : List Hash) :
    buildLevels H param h lvl cur ≠ [] := by
  cases h <;> simp [buildLevels]

theorem headD_getD (l : List α) (d : α) : l.headD d = l.getD 0 d := by
  cases l <;> simp

theorem verify_walk (H : List Nat → List Nat) (param : Param) :
    ∀ (hgt lvl idx : Nat) (cur : List Hash),
      cur.length = 2 ^ hgt → idx < 2 ^ hgt →
      verifyAux H param (cur.getD idx []) idx lvl
        (pathAux (buildLevels H param hgt lvl cur).dropLast idx)
      = (iterLevels H param hgt lvl cur).getD 0 [] := by
  intro hgt
  induction hgt with
  | zero =>
    intro lvl idx cur hlen hidx
    rw [pow_zero] at hidx
    have h0 : idx = 0 := by omega
    subst h0
    simp [buildLevels, pathAux, verifyAux, iterLevels]
  | succ h ih =>
    intro lvl idx cur hlen hidx
    have hpow : 2 ^ (h + 1) = 2 * 2 ^ h := by
      rw [pow_succ]
      ring
    have hnl : (nextLevel H param lvl cur).length = 2 ^ h := by
      rw [nextLevel_length, hlen, hpow]
      omega
    have hidx2 : idx / 2 < 2 ^ h := by omega
    rw [buildLevels,
      List.dropLast_cons_of_ne_nil (buildLevels_ne_nil H param h (lvl + 1) _),
      pathAux, verifyAux, iterLevels,
      ← ih (lvl + 1) (idx / 2) (nextLevel H param lvl cur) hnl hidx2]
    congr 1
    rcases Nat.mod_two_eq_zero_or_one idx with hpar | hpar
    · have hx : idx ^^^ 1 = idx + 1 := xor_one_of_even hpar
      have hb : 2 * (idx / 2) + 1 < cur.length := by omega
      have h1 : 2 * (idx / 2) = idx := by omega
      rw [nextLevel_getD H param lvl cur (idx / 2) hb, h1, hx]
      simp [hpar]
    · have hx : idx ^^^ 1 = idx - 1 := xor_one_of_odd hpar
      have hb : 2 * (idx / 2) + 1 < cur.length := by omega
      have h2 : 2 * (idx / 2) + 1 = idx := by omega
      have h1 : 2 * (idx / 2) = idx - 1 := by omega
      rw [nextLevel_getD H param lvl cur (idx / 2) hb, h2, h1, hx]
      simp [hpar]

theorem log2Fuel_eq : ∀ (fuel n : Nat), n ≤ fuel → log2Fuel fuel n = Nat.log2 n
  | 0, n, h => by
    have h0 : n = 0 := by omega
    subst h0
    rw [log2Fuel, Nat.log2]
    simp
  | fuel + 1, n, h => by
    rw [log2Fuel, Nat.log2]
    by_cases h2 : n ≥ 2
    · rw [if_pos h2, if_pos h2, log2Fuel_eq fuel (n / 2) (by omega)]
    · rw [if_neg h2, if_neg h2]

theorem ilog2_eq_log2 (n : Nat) : ilog2 n = Nat.log2 n :=
  log2Fuel_eq n n (Nat.le_refl n)

theorem hash_tree_verify_true (H : List Nat → List Nat) (param : Param)
    {h : Nat} (leaves : List Hash) (hlen : leaves.length = 2 ^ h)
    {i : Nat} (hi : i < 2 ^ h) :
    ((HashTree.new H param leaves).get_proof i).verify H param
      (leaves.getD i []) (HashTree.new H param leaves).root = true := by
  have hlog : ilog2 leaves.length = h := by
    rw [ilog2_eq_log2, hlen]
    exact Nat.log2_two_pow
  simp only [HashTree.new, HashTree.get_proof, HashTreeProof.verify, hlog]
  rw [verify_walk H param h 0 i leaves hlen hi, headD_getD]
  exact beq_self_eq_true _

theorem verifyAux_ne (H : List Nat → List Nat) (param : Param)
    (hL : ∀ lvl k a a' b, tweak_hash_tree_node H param a b lvl k
      = tweak_hash_tree_node H param a' b lvl k → a = a')
    (hR : ∀ lvl k a b b', tweak_hash_tree_node H param a b lvl k
      = tweak_hash_tree_node H param a b' lvl k → b = b') :
    ∀ (path : List Hash) (x y : Hash) (idx lvl : Nat), x ≠ y →
      verifyAux H param x idx lvl path ≠ verifyAux H param y idx lvl path
  | [], x, y, idx, lvl, hxy => hxy
  | s :: rest, x, y, idx, lvl, hxy => by
    rw [verifyAux, verifyAux]
    rcases Nat.mod_two_eq_zero_or_one idx with hpar | hpar
    · simp only [hpar, reduceIte]
      apply verifyAux_ne H param hL hR rest _ _ _ _
      intro heq
      exact hxy (hL lvl (idx / 2) x y s heq)
    · simp only [hpar, Nat.one_ne_zero, reduceIte]
      apply verifyAux_ne H param hL hR rest _ _ _ _
      intro heq
      exact hxy (hR lvl (idx / 2) s x y heq)

/-- C5 (amended): for a power-of-two leaf vector, the proof for leaf `i`
verifies `leaves[i]` against the root; and — provided the tree-node hash
is injective in each child slot — verifying that proof with a value
`leaves[j]` different from `leaves[i]` returns false. -/
theorem merkle_proof_soundness (H : List Nat → List Nat) (param : Param)
    (h i j : Nat) (leaves : List Hash) (hlen : leaves.length = 2 ^ h)
    (hi : i < 2 ^ h) (_hj : j < 2 ^ h) :
    ((HashTree.new H param leaves).get_proof i).verify H param
      (leaves.getD i []) (HashTree.new H param leaves).root = true ∧
    ((∀ lvl k a a' b, tweak_hash_tree_node H param a b lvl k
        = tweak_hash_tree_node H param a' b lvl k → a = a') →
     (∀ lvl k a b b', tweak_hash_tree_node H param a b lvl k
        = tweak_hash_tree_node H param a b' lvl k → b = b') →
     leaves.getD j [] ≠ leaves.getD i [] →
     ((HashTree.new H param leaves).get_proof i).verify H param
       (leaves.getD j []) (HashTree.new H param leaves).root = false) := by
  constructor
  · exact hash_tree_verify_true H param leaves hlen hi
  · intro hL hR hne
    have hpos := hash_tree_verify_true H param leaves hlen hi
    rw [HashTreeProof.verify, beq_iff_eq] at hpos
    rw [HashTreeProof.verify, beq_eq_false_iff_ne, ← hpos]
    exact verifyAux_ne H param hL hR _ _ _ _ _ hne

theorem idDigest_node_inj_left (p : Param) (lvl k : Nat) (a a' b : Hash)
    (heq : tweak_hash_tree_node idDigest p a b lvl k
      = tweak_hash_tree_node idDigest p a' b lvl k) : a = a' := by
  simp only [tweak_hash_tree_node, Keccak.finalize, Keccak.update,
    Keccak.v256, idDigest] at heq
  exact List.append_cancel_left (List.append_cancel_right heq)

theorem idDigest_node_inj_right (p : Param) (lvl k : Nat) (a b b' : Hash)
    (heq : tweak_hash_tree_node idDigest p a b lvl k
      = tweak_hash_tree_node idDigest p a b' lvl k) : b = b' := by
  simp only [tweak_hash_tree_node, Keccak.finalize, Keccak.update,
    Keccak.v256, idDigest] at heq
  exact List.append_cancel_left heq

/-- Counterexample to C5 as stated: with the duplicate leaf vector
`[[0], [0]]`, the proof generated for leaf `0` also verifies the leaf
value taken at index `1 ≠ 0`, returning true where the claim demands
false. -/
theorem merkle_proof_soundness_counterexample :
    (1 : Nat) ≠ 0 ∧
    ((HashTree.new idDigest [] [[0], [0]]).get_proof 0).verify idDigest []
      (([[0], [0]] : List Hash).getD 1 [])
      (HashTree.new idDigest [] [[0], [0]]).root = true := by decide

/-- Witness for C5 (amended) at the concrete two-leaf tree `[[0], [1]]`
under the injective identity digest: the proof for leaf 0 accepts
`[0]` and rejects `[1]`. -/
theorem merkle_proof_soundness_witness :
    ((HashTree.new idDigest [] [[0], [1]]).get_proof 0).verify idDigest []
      (([[0], [1]] : List Hash).getD 0 [])
      (HashTree.new idDigest [] [[0], [1]]).root = true ∧
    ((HashTree.new idDigest [] [[0], [1]]).get_proof 0).verify idDigest []
      (([[0], [1]] : List Hash).getD 1 [])
      (HashTree.new idDigest [] [[0], [1]]).root = false := by
  obtain ⟨hpos, hneg⟩ := merkle_proof_soundness idDigest [] 1 0 1
    [[0], [1]] (by decide) (by decide) (by decide)
  exact ⟨hpos, hneg (fun lvl k a a' b => idDigest_node_inj_left [] lvl k a a' b)
    (fun lvl k a b b' => idDigest_node_inj_right [] lvl k a b b') (by decide)⟩

theorem drawHashes_length : ∀ (n : Nat) (r : Rng),
    (drawHashes n r).1.length = n
  | 0, r => rfl
  | n + 1, r => by
    simp only [drawHashes, List.length_cons]
    rw [drawHashes_length n (Hash.random r).2]

theorem genKeyPairs_length (H : List Nat → List Nat) (spec : Spec)
    (param : Param) : ∀ (n : Nat) (r : Rng),
    (genKeyPairs H spec param n r).1.length = n
  | 0, r => rfl
  | n + 1, r => by
    simp only [genKeyPairs, List.length_cons]
    rw [genKeyPairs_length H spec param n _]

theorem genKeyPairs_mem (H : List Nat → List Nat) (spec : Spec)
    (param : Param) : ∀ (n : Nat) (r : Rng) (kp : Sk × Pk),
    kp ∈ (genKeyPairs H spec param n r).1 →
      kp.1.param = param ∧ kp.1.start_hashes.length = spec.dimension ∧
      kp.2 = Pk.derive H kp.1 spec
  | 0, r, kp, hmem => by simp [genKeyPairs] at hmem
  | n + 1, r, kp, hmem => by
    simp only [genKeyPairs, List.mem_cons] at hmem
    rcases hmem with h1 | h1
    · subst h1
      refine ⟨rfl, ?_, rfl⟩
      simp only [Sk.random]
      exact drawHashes_length spec.dimension r
    · exact genKeyPairs_mem H spec param n _ kp h1

theorem chain_complete (H : List Nat → List Nat) (pa : Param) (L : Nat) :
    ∀ (starts : List Hash) (coords : List Nat) (n : Nat),
      starts.length = coords.length →
      (∀ c ∈ coords, c < L) →
      mapIdxFrom (fun i p => hash_chain H pa i p.1 p.2 (L - 1 - p.2)) n
        ((mapIdxFrom (fun i p => hash_chain H pa i p.1 0 p.2) n
          (starts.zip coords)).zip coords)
      = mapIdxFrom (fun i s => hash_chain H pa i s 0 (L - 1)) n starts := by
  intro starts
  induction starts with
  | nil => intro coords n _ _; rfl
  | cons a t ih =>
    intro coords n hlen hbound
    cases coords with
    | nil => simp at hlen
    | cons c cs =>
      simp only [List.zip_cons_cons, mapIdxFrom]
      have ih' := ih cs (n + 1) (by simpa using hlen)
        (fun x hx => hbound x (List.mem_cons_of_mem c hx))
      simp only [List.zip] at ih'
      rw [ih']
      have hc : c < L := hbound c (List.mem_cons_self c cs)
      have hstep : hash_chain H pa n (hash_chain H pa n a 0 c) c (L - 1 - c)
          = hash_chain H pa n a 0 (L - 1) := by
        have := hash_chain_compose H pa n a 0 c (L - 1 - c)
        rw [Nat.zero_add] at this
        rw [this]
        congr 1
        omega
      rw [hstep]

theorem signer_new_fields (H : List Nat → List Nat) (rng : Rng)
    (max_retries : Nat) (spec : Spec) (lifetime : Nat) :
    (Signer.new H rng max_retries spec lifetime).spec = spec ∧
    (Signer.new H rng max_retries spec lifetime).key_pairs
      = (genKeyPairs H spec (Param.random spec.param_len rng).1 lifetime
          (Param.random spec.param_len rng).2).1 ∧
    (Signer.new H rng max_retries spec lifetime).param
      = (Param.random spec.param_len rng).1 ∧
    (Signer.new H rng max_retries spec lifetime).hash_tree
      = HashTree.new H (Signer.new H rng max_retries spec lifetime).param
          ((Signer.new H rng max_retries spec lifetime).key_pairs.map
            (fun kp => tweak_public_key_hash H
              (Signer.new H rng max_retries spec lifetime).param kp.2)) ∧
    (Signer.new H rng max_retries spec lifetime).root
      = (Signer.new H rng max_retries spec lifetime).hash_tree.root :=
  ⟨rfl, rfl, rfl, rfl, rfl⟩

theorem sign_verify_aux (H : List Nat → List Nat) (s : Signer)
    (h epoch : Nat) (message : Message) (sig : Signature)
    (hH : ∀ l, (H l).length = 32)
    (hmhl : s.spec.message_hash_len ≤ 32)
    (hkp : ∀ kp ∈ s.key_pairs,
      kp.1.start_hashes.length = s.spec.dimension ∧
      kp.2 = Pk.derive H kp.1 s.spec)
    (htree : s.hash_tree = HashTree.new H s.param
      (s.key_pairs.map (fun kp => tweak_public_key_hash H s.param kp.2)))
    (hroot : s.root = s.hash_tree.root)
    (hlen : s.key_pairs.length = 2 ^ h)
    (hepoch : epoch < s.key_pairs.length)
    (hsig : (Signer.sign H s epoch message).1 = some sig) :
    verify_signature H s.spec s.param message sig s.root = true ∧
    (∀ c ∈ (Codeword.new H s.spec sig.public_key.param message
      sig.signature.nonce).coords, c < s.spec.chain_len) ∧
    (Codeword.new H s.spec sig.public_key.param message
      sig.signature.nonce).sum = s.spec.target_sum := by
  rcases hg : grind H s.spec s.max_retries
      ((s.key_pairs.getD epoch ⟨⟨[], []⟩, ⟨[], []⟩⟩).1.param) message s.rng
    with ⟨o, rng2⟩
  cases o with
  | none =>
    simp only [Signer.sign, hg] at hsig
    exact nomatch hsig
  | some pair =>
    rcases pair with ⟨cw, nonce⟩
    simp only [Signer.sign, hg, Option.some.injEq] at hsig
    subst hsig
    set kp := s.key_pairs.getD epoch (⟨⟨[], []⟩, ⟨[], []⟩⟩ : Sk × Pk)
      with hkp_def
    have hkmem : kp ∈ s.key_pairs := by
      rw [hkp_def, List.getD_eq_getElem _ _ hepoch]
      exact List.getElem_mem hepoch
    obtain ⟨hsklen, hpk⟩ := hkp kp hkmem
    have hgf : (grind H s.spec s.max_retries (kp.1.param) message s.rng).1
        = some (cw, nonce) := by
      rw [hg]
    have hnv := grind_some hgf
    obtain ⟨hcw, hsum⟩ := new_valid_some hnv
    have hparam : kp.2.param = kp.1.param := by rw [hpk]; rfl
    have hcoordlen : cw.coords.length = s.spec.dimension := by
      rw [hcw]
      exact codeword_length s.spec kp.1.param message nonce hH hmhl
    have hbound : ∀ c ∈ cw.coords, c < s.spec.chain_len := by
      intro c hc
      rw [hcw] at hc
      exact codeword_coords_lt hc
    have hend : mapIdxFrom
        (fun chain_index p => hash_chain H kp.1.param chain_index p.1 p.2
          (s.spec.chain_len - 1 - p.2)) 0
        ((mapIdxFrom
          (fun chain_index p => hash_chain H kp.1.param chain_index p.1 0 p.2)
          0 (kp.1.start_hashes.zip cw.coords)).zip cw.coords)
        = kp.2.end_hashes := by
      rw [chain_complete H kp.1.param s.spec.chain_len kp.1.start_hashes
        cw.coords 0 (by rw [hsklen, hcoordlen]) hbound, hpk]
      rfl
    refine ⟨?_, ?_, ?_⟩
    · simp only [verify_signature, hparam, hnv, hend]
      simp only [if_true]
      rw [htree, hroot, htree]
      have hmaplen :
          (s.key_pairs.map
            (fun kp => tweak_public_key_hash H s.param kp.2)).length
          = 2 ^ h := by
        rw [List.length_map, hlen]
      have hleaf :
          (s.key_pairs.map
            (fun kp => tweak_public_key_hash H s.param kp.2)).getD epoch []
          = tweak_public_key_hash H s.param kp.2 := by
        rw [List.getD_eq_getElem _ _ (by rw [List.length_map]; exact hepoch),
          List.getElem_map, hkp_def, List.getD_eq_getElem _ _ hepoch]
      rw [← hleaf]
      exact hash_tree_verify_true H s.param _ hmaplen (hlen ▸ hepoch)
    · intro c hc
      simp only [hparam] at hc
      rw [← hcw] at hc
      exact hbound c hc
    · simp only [hparam]
      rw [← hcw]
      exact hsum

/-- C1: whenever a freshly constructed signer signs a message at an epoch
inside its power-of-two lifetime and `sign` returns a signature, that
signature verifies under the signer's spec, param and root, and the
codeword recovered from `(sig.public_key.param, message, sig.nonce)` has
every coordinate below `chain_len = 2^w` and coordinate sum exactly
`target_sum`. -/
theorem sign_then_verify (H : List Nat → List Nat) (spec : Spec) (rng : Rng)
    (max_retries lifetime h epoch : Nat) (message : Message)
    (hH : ∀ l, (H l).length = 32) (hmhl : spec.message_hash_len ≤ 32)
    (hlife : lifetime = 2 ^ h) (hepoch : epoch < lifetime) :
    ∀ sig : Signature,
      (Signer.sign H (Signer.new H rng max_retries spec lifetime) epoch
        message).1 = some sig →
      verify_signature H spec
        (Signer.new H rng max_retries spec lifetime).param message sig
        (Signer.new H rng max_retries spec lifetime).root = true ∧
      (∀ c ∈ (Codeword.new H spec sig.public_key.param message
        sig.signature.nonce).coords, c < spec.chain_len) ∧
      (Codeword.new H spec sig.public_key.param message
        sig.signature.nonce).sum = spec.target_sum := by
  intro sig hsig
  have hkps : (Signer.new H rng max_retries spec lifetime).key_pairs
      = (genKeyPairs H spec (Param.random spec.param_len rng).1 lifetime
          (Param.random spec.param_len rng).2).1 := rfl
  have hlen :
      (Signer.new H rng max_retries spec lifetime).key_pairs.length
        = 2 ^ h := by
    rw [hkps, genKeyPairs_length, hlife]
  apply sign_verify_aux H (Signer.new H rng max_retries spec lifetime) h
    epoch message sig hH hmhl ?_ rfl rfl hlen ?_ hsig
  · intro kp hmem
    rw [hkps] at hmem
    have hfacts := genKeyPairs_mem H spec _ lifetime _ kp hmem
    exact ⟨hfacts.2.1, hfacts.2.2⟩
  · rw [hlen, ← hlife]
    exact hepoch

/-- Witness for C1 at the concrete one-epoch signer under the 32-zero-byte
digest: the produced signature verifies and its recovered codeword sums to
the target. -/
theorem sign_then_verify_witness :
    verify_signature zeroDigest32 oneSpec oneSigner.param oneMessage
      oneSignature oneSigner.root = true ∧
    (Codeword.new zeroDigest32 oneSpec oneSignature.public_key.param
      oneMessage oneSignature.signature.nonce).sum = oneSpec.target_sum := by
  obtain ⟨h1, -, h3⟩ := sign_then_verify zeroDigest32 oneSpec zeroRng 5 1 0 0
    oneMessage (fun l => by simp [zeroDigest32]) (by decide) (by decide)
    (by decide) oneSignature (by decide)
  exact ⟨h1, h3⟩

end LeanSig
